import Mathlib

set_option maxHeartbeats 1000000

/-!
Verification of the input-validation and path-confinement layer of the
archestra coding agent.

Two components are embedded from the source:

* `_sanitize_path` from `src/tools/git_tools.py`, together with the posixpath
  primitives it calls (`os.path.isabs`, `os.path.abspath`, `os.path.join`,
  `os.path.normpath`, `os.path.commonpath`).  Strings are modelled as Lean
  `String`, with the character-level work done on `String.data : List Char`.
  `os.path.abspath` consults the process working directory, so the embedding
  takes the working directory as an explicit `cwd` argument; for an absolute
  base directory (the case all claims are about) `cwd` is provably irrelevant.
  Path separator is the posix `/`.

* `_parse_repo_info` from `src/tools/github_tools.py`, together with its three
  anchored regular expressions.  Each regex is compiled by hand into a
  deterministic matcher; comments at each definition justify that the matcher
  computes exactly what the Python `re` backtracking engine computes,
  including the greedy owner group, the lazy name group, and the semantics of
  `$` (end of string, or just before a single trailing newline).
-/

/-! ## Character classes -/

/-- The whitespace characters stripped by Python `str.strip()` (ASCII range;
the inputs treated by the claims contain no non-ASCII whitespace). -/
def isPySpace (c : Char) : Bool :=
  c == ' ' || c == '\t' || c == '\n' || c == '\r' || c == '\x0b' || c == '\x0c'

/-- The character class `[a-zA-Z0-9_.-]` used by all three patterns of
`github_tools.py` (`Char.isAlpha` and `Char.isDigit` are ASCII-only, exactly
matching the regex ranges). -/
def isRepoChar (c : Char) : Bool :=
  c.isAlpha || c.isDigit || c == '_' || c == '.' || c == '-'

/-- Python `str.strip()` on the character list: drop leading and trailing whitespace. -/
def pystripList (l : List Char) : List Char :=
  ((l.dropWhile isPySpace).reverse.dropWhile isPySpace).reverse

/-- Python `repo_url.strip()`. -/
def pystrip (s : String) : String :=
  String.mk (pystripList s.data)

/-! ## Regex building blocks

Python `re` with neither `MULTILINE` nor `DOTALL`: `$` matches at the very
end of the subject, or just before a newline that is the last character. -/

/-- The `$` anchor: remaining input is empty, or a single trailing newline. -/
def endOk : List Char → Bool
  | [] => true
  | [c] => c == '\n'
  | _ => false

/-- The tail `/?$` : an optional literal slash, then `$`.  The boolean disjunction is
exactly the backtracking alternatives of the optional quantifier. -/
def optSlashEnd (t : List Char) : Bool :=
  (match t with
   | c :: v => c == '/' && endOk v
   | [] => false) || endOk t

/-- The group `(?:\.git)?` followed by a continuation `basef`: either consume a literal
`.git` and continue, or continue directly.  Again the disjunction enumerates
both backtracking alternatives of the optional group. -/
def dotGitOpt (basef : List Char → Bool) (t : List Char) : Bool :=
  (if List.isPrefixOf ['.', 'g', 'i', 't'] t then basef (t.drop 4) else false) || basef t

/-- Tail of the HTTPS pattern after the name group: `(?:\.git)?/?$`. -/
def tailHTTPS (t : List Char) : Bool :=
  dotGitOpt optSlashEnd t

/-- Tail of the SSH pattern after the name group: `(?:\.git)?$`. -/
def tailSSH (t : List Char) : Bool :=
  dotGitOpt endOk t

/-- The lazy name group `([a-zA-Z0-9_.-]+?)` followed by the tail `tailf`.
A lazy `+?` tries the shortest repetition first: take one class character,
try the continuation, and only extend on failure.  `findName` returns the
group captured by the first (shortest) successful repetition, which is
exactly the capture the backtracking engine reports. -/
def findName (tailf : List Char → Bool) : List Char → Option (List Char)
  | [] => none
  | c :: cs =>
    if isRepoChar c then
      if tailf cs then some [c]
      else
        match findName tailf cs with
        | some g => some (c :: g)
        | none => none
    else none

/-- The greedy group-then-slash `([a-zA-Z0-9_.-]+)/` shared by all three
patterns.  The greedy `+` takes the maximal run of class characters; since
`/` is not in the class, backtracking to a shorter run puts a class
character (never `/`) next, so only the maximal run can be followed by the
literal slash.  The matcher is therefore deterministic: maximal run, then
require a slash. -/
def matchOwner (l : List Char) : Option (List Char × List Char) :=
  if l.takeWhile isRepoChar == [] then none
  else
    match l.dropWhile isRepoChar with
    | c :: rest => if c == '/' then some (l.takeWhile isRepoChar, rest) else none
    | [] => none

/-- The group `(?:https?://)?` : the alternatives `https://`, `http://`, nothing, in the
preference order of the engine.  The three continuations begin with `h`,
`w`/`g` respectively, and a subject starting with `https://` or `http://`
cannot also start with `www.` or `github.com/`, so first-match is the only
possible match and the drop is deterministic. -/
def dropScheme (l : List Char) : List Char :=
  if List.isPrefixOf "https://".data l then l.drop 8
  else if List.isPrefixOf "http://".data l then l.drop 7
  else l

/-- The group `(?:www\.)?` : a subject starting with `www.` cannot also start with
`github.com/`, so consuming the prefix when present is deterministic. -/
def dropWww (l : List Char) : List Char :=
  if List.isPrefixOf "www.".data l then l.drop 4 else l

/-- The host-and-groups part of `GITHUB_URL_PATTERN` after the optional
scheme and `www.` have been consumed: literal `github.com/`, the greedy owner
group, `/`, the lazy name group, then `(?:\.git)?/?$`. -/
def matchHTTPScore (s : List Char) : Option (List Char × List Char) :=
  if List.isPrefixOf "github.com/".data s then
    match matchOwner (s.drop 11) with
    | some (own, r2) =>
      match findName tailHTTPS r2 with
      | some nm => some (own, nm)
      | none => none
    | none => none
  else none

/-- The regex `GITHUB_URL_PATTERN`:
`^(?:https?://)?(?:www\.)?github\.com/([a-zA-Z0-9_.-]+)/([a-zA-Z0-9_.-]+?)(?:\.git)?/?$`
applied with `re.match` (anchored on the left by `^`). -/
def matchHTTPS (l : List Char) : Option (List Char × List Char) :=
  matchHTTPScore (dropWww (dropScheme l))

/-- The regex `GITHUB_SSH_PATTERN`:
`^git@github\.com:([a-zA-Z0-9_.-]+)/([a-zA-Z0-9_.-]+?)(?:\.git)?$`. -/
def matchSSH (l : List Char) : Option (List Char × List Char) :=
  if List.isPrefixOf "git@github.com:".data l then
    match matchOwner (l.drop 15) with
    | some (own, r2) =>
      match findName tailSSH r2 with
      | some nm => some (own, nm)
      | none => none
    | none => none
  else none

/-- The regex `OWNER_REPO_PATTERN`: `^([a-zA-Z0-9_.-]+)/([a-zA-Z0-9_.-]+)$`.
The second group is greedy and followed by `$`: the maximal run of class
characters must be followed by end of input (or the trailing newline `$`
tolerates); a shorter run would be followed by a class character, which
never satisfies `$`, so the matcher is deterministic. -/
def matchBare (l : List Char) : Option (List Char × List Char) :=
  match matchOwner l with
  | some (own, r2) =>
    if r2.takeWhile isRepoChar == [] then none
    else if endOk (r2.dropWhile isRepoChar) then some (own, r2.takeWhile isRepoChar)
    else none
  | none => none

/-- Function `_parse_repo_info` from `github_tools.py`: `None` propagates to
`(None, None)`; otherwise the input is stripped and the three anchored
patterns are tried in order, the first full match returning its two
captured groups. -/
def parse_repo_info (repo_url : Option String) : Option String × Option String :=
  match repo_url with
  | none => (none, none)
  | some s =>
    match matchHTTPS (pystripList s.data) with
    | some (o, n) => (some (String.mk o), some (String.mk n))
    | none =>
      match matchSSH (pystripList s.data) with
      | some (o, n) => (some (String.mk o), some (String.mk n))
      | none =>
        match matchBare (pystripList s.data) with
        | some (o, n) => (some (String.mk o), some (String.mk n))
        | none => (none, none)

/-! ## posixpath primitives -/

/-- Python `posixpath.isabs`: the path begins with the separator. -/
def startsWithSlash : List Char → Bool
  | c :: _ => c == '/'
  | [] => false

/-- Python `os.path.isabs` on strings. -/
def isabs (p : String) : Bool :=
  startsWithSlash p.data

/-- The path ends with the separator (used by `posixpath.join`). -/
def endsWithSlash (l : List Char) : Bool :=
  l.getLast? == some '/'

/-- Python `posixpath.join(a, b)` for two components: if `b` is absolute it replaces
`a`; otherwise it is appended, inserting a separator unless `a` is empty or
already ends with one. -/
def pjoinList (a b : List Char) : List Char :=
  if startsWithSlash b then b
  else if a == [] || endsWithSlash a then a ++ b
  else a ++ '/' :: b

/-- Python `os.path.join` on strings. -/
def pjoin (a b : String) : String :=
  String.mk (pjoinList a.data b.data)

/-- Python `str.split(sep)` for the one-character separator `/`. -/
def splitSlash : List Char → List (List Char)
  | [] => [[]]
  | c :: cs =>
    if c = '/' then [] :: splitSlash cs
    else
      match splitSlash cs with
      | g :: gs => (c :: g) :: gs
      | [] => [[c]]

/-- Python `sep.join(comps)` for the separator `/`. -/
def joinSlash : List (List Char) → List Char
  | [] => []
  | [x] => x
  | x :: xs => x ++ '/' :: joinSlash xs

/-- The number of initial slashes tracked by `posixpath.normpath`: POSIX
allows one or two initial slashes, but treats three or more as one
(`startswith` checks exactly as in the source). -/
def initialSlashes (l : List Char) : Nat :=
  if List.isPrefixOf ['/'] l then
    if List.isPrefixOf ['/', '/'] l && !(List.isPrefixOf ['/', '/', '/'] l) then 2 else 1
  else 0

/-- One step of the component loop of `posixpath.normpath`: skip empty and
`.` components; append a component unless it is a `..` that cancels against
a previous real component, in which case pop. -/
def normStep (init : Nat) (acc : List (List Char)) (comp : List Char) : List (List Char) :=
  if comp == [] || comp == ['.'] then acc
  else if comp != ['.', '.'] || (init == 0 && acc == []) || acc.getLast? == some ['.', '.'] then
    acc ++ [comp]
  else if acc != [] then acc.dropLast
  else acc

/-- Python `posixpath.normpath` on the character list: empty input is `.`; otherwise
split on `/`, run the component loop, re-join, restore the initial slashes,
and return `.` when everything cancelled. -/
def normpathList (l : List Char) : List Char :=
  if l = [] then ['.']
  else
    let init := initialSlashes l
    let comps := (splitSlash l).foldl (normStep init) []
    let res := List.replicate init '/' ++ joinSlash comps
    if res = [] then ['.'] else res

/-- Python `os.path.normpath` on strings. -/
def normpath (p : String) : String :=
  String.mk (normpathList p.data)

/-- Python `os.path.abspath(p)`: prepend the working directory unless `p` is already
absolute, then normalize.  `cwd` is the process working directory
(`os.getcwd()`), passed explicitly in this embedding. -/
def abspath (cwd p : String) : String :=
  if isabs p then normpath p else normpath (pjoin cwd p)

/-- Longest common prefix of two component lists.  For exactly two paths,
`posixpath.commonpath` computes `s1 = min(paths)`, `s2 = max(paths)` and cuts
`s1` at the first index where it disagrees with `s2`; with two elements
`{s1, s2}` is just the two lists, and cutting the smaller at the first
disagreement with the larger is precisely their longest common prefix. -/
def lcpComps : List (List Char) → List (List Char) → List (List Char)
  | x :: xs, y :: ys => if x = y then x :: lcpComps xs ys else []
  | _, _ => []

/-- Python `posixpath.commonpath([a, b])`.  `none` models the `ValueError` raised
when one path is absolute and the other relative; otherwise split both on
`/`, discard empty and `.` components, and join the longest common prefix
behind the common root. -/
def commonpath2List (a b : List Char) : Option (List Char) :=
  if startsWithSlash a != startsWithSlash b then none
  else
    some ((if startsWithSlash a then ['/'] else []) ++
      joinSlash (lcpComps
        ((splitSlash a).filter (fun c => c != [] && c != ['.']))
        ((splitSlash b).filter (fun c => c != [] && c != ['.']))))

/-! ## `_sanitize_path` from `git_tools.py` -/

/-- The rejection message for absolute targets (the f-string of line 34). -/
def absMsg (target : String) : String :=
  "Absolute paths are not allowed. Use a relative directory name instead of \x27" ++
    target ++ "\x27"

/-- The rejection message of the two traversal checks (lines 47 and 55). -/
def travMsg (base : String) : String :=
  "Path traversal detected. Target must be within " ++ base

/-- The rejection message of the `ValueError` handler (line 50). -/
def invalidMsg (base : String) : String :=
  "Invalid path. Target must be within " ++ base

/-- Lines 44-57 of `_sanitize_path`: the containment check against the
already-normalized base.  The `none` branch of `commonpath2List` is the
`except ValueError` handler.  The final Python test is
`if not (full == base or full.startswith(base + os.sep)): reject`, written
here with the success branch first. -/
def containment_check (base full : String) : String × Option String :=
  match commonpath2List base.data full.data with
  | none => ("", some (invalidMsg base))
  | some common =>
    if common != base.data then ("", some (travMsg base))
    else if full.data == base.data || List.isPrefixOf (base.data ++ ['/']) full.data then
      (full, none)
    else ("", some (travMsg base))

/-- Function `_sanitize_path(target_dir, base_dir)`: reject absolute targets, then
normalize `base_dir` with `abspath`, join and normalize the candidate, and
run the containment check.  Returns `(sanitized_full_path, error_message)`
exactly as the Python function does. -/
def sanitize_path (cwd target_dir base_dir : String) : String × Option String :=
  if isabs target_dir then ("", some (absMsg target_dir))
  else
    containment_check (abspath cwd base_dir)
      (normpath (pjoin (abspath cwd base_dir) target_dir))
/-- The components appearing in a normalized absolute path: nonempty, not a
dot component, and (because leading `..` segments cancel against the root)
not a dot-dot component, containing no separator. -/
def cleanComp (g : List Char) : Prop :=
  g ≠ [] ∧ g ≠ ['.'] ∧ g ≠ ['.', '.'] ∧ '/' ∉ g

/-! ## Helper lemmas: characters and strings -/

lemma repoChar_ne_slash {c : Char} (h : isRepoChar c = true) : c ≠ '/' := by
  intro he; subst he; exact absurd h (by decide)

lemma repoChar_ne_at {c : Char} (h : isRepoChar c = true) : c ≠ '@' := by
  intro he; subst he; exact absurd h (by decide)

lemma repoChar_ne_colon {c : Char} (h : isRepoChar c = true) : c ≠ ':' := by
  intro he; subst he; exact absurd h (by decide)

lemma repoChar_ne_newline {c : Char} (h : isRepoChar c = true) : c ≠ '\n' := by
  intro he; subst he; exact absurd h (by decide)

lemma data_mk (l : List Char) : (String.mk l).data = l := rfl

lemma repoChar_not_space {c : Char} (h : isRepoChar c = true) : isPySpace c = false := by
  cases hs : isPySpace c with
  | false => rfl
  | true =>
    exfalso
    have h6 : c = ' ' ∨ c = '\t' ∨ c = '\n' ∨ c = '\r' ∨ c = '\x0b' ∨ c = '\x0c' := by
      simpa [isPySpace, or_assoc] using hs
    rcases h6 with h1 | h1 | h1 | h1 | h1 | h1 <;> subst h1 <;> exact absurd h (by decide)

lemma beq_comm_char (a b : Char) : (a == b) = (b == a) := by
  by_cases h : a = b
  · subst h; rfl
  · have h1 : (a == b) = false := by simp [beq_iff_eq, h]
    have h2 : (b == a) = false := by simp [beq_iff_eq]; exact fun he => h he.symm
    rw [h1, h2]

/-! ## Helper lemmas: `List.isPrefixOf` -/

lemma ipo_nil (l : List Char) : List.isPrefixOf ([] : List Char) l = true := by
  cases l <;> rfl

lemma ipo_cons (a b : Char) (as bs : List Char) :
    List.isPrefixOf (a :: as) (b :: bs) = (a == b && List.isPrefixOf as bs) := rfl

lemma ipo_cons_nil (a : Char) (as : List Char) :
    List.isPrefixOf (a :: as) ([] : List Char) = false := rfl

lemma ipo_append (p t : List Char) : List.isPrefixOf p (p ++ t) = true := by
  induction p with
  | nil => exact ipo_nil t
  | cons a as ih => simp [ipo_cons, ih]

lemma ipo_decomp : ∀ {p l : List Char}, List.isPrefixOf p l = true → l = p ++ l.drop p.length := by
  intro p
  induction p with
  | nil => intro l _; simp
  | cons a as ih =>
    intro l h
    cases l with
    | nil => exact absurd h (by simp [ipo_cons_nil])
    | cons b bs =>
      rw [ipo_cons, Bool.and_eq_true, beq_iff_eq] at h
      obtain ⟨hab, hpre⟩ := h
      subst hab
      simpa using ih hpre

lemma ipo_shorter : ∀ {p q l : List Char}, List.isPrefixOf p l = true →
    List.isPrefixOf q l = true → p.length ≤ q.length → List.isPrefixOf p q = true := by
  intro p
  induction p with
  | nil => intro q l _ _ _; exact ipo_nil q
  | cons a as ih =>
    intro q l hp hq hlen
    cases q with
    | nil => simp at hlen
    | cons b bs =>
      cases l with
      | nil => exact absurd hp (by simp [ipo_cons_nil])
      | cons c cs =>
        rw [ipo_cons, Bool.and_eq_true, beq_iff_eq] at hp hq
        obtain ⟨hac, hp'⟩ := hp
        obtain ⟨hbc, hq'⟩ := hq
        subst hac; subst hbc
        rw [ipo_cons, Bool.and_eq_true, beq_iff_eq]
        exact ⟨rfl, ih hp' hq' (by simpa using hlen)⟩

lemma ipo_take (p : List Char) : ∀ l, List.isPrefixOf p l = List.isPrefixOf p (l.take p.length) := by
  induction p with
  | nil => intro l; rw [ipo_nil, ipo_nil]
  | cons a as ih =>
    intro l
    cases l with
    | nil => rfl
    | cons b bs => simp [ipo_cons, ih bs]

lemma ipo_slash (t : List Char) : List.isPrefixOf ['/'] t = startsWithSlash t := by
  cases t with
  | nil => rfl
  | cons c cs =>
    rw [ipo_cons, ipo_nil, Bool.and_true]
    show ('/' == c) = (c == '/')
    exact beq_comm_char '/' c

/-! ## Helper lemmas: `splitSlash` and `joinSlash` -/

lemma splitSlash_ne_nil (l : List Char) : splitSlash l ≠ [] := by
  cases l with
  | nil => simp [splitSlash]
  | cons c cs =>
    by_cases h : c = '/'
    · subst h; simp [splitSlash]
    · simp only [splitSlash, if_neg h]
      cases hs : splitSlash cs with
      | nil => simp
      | cons g gs => simp

lemma splitSlash_cons_head : ∀ (cs : List Char) (c : Char), c ≠ '/' →
    ∃ g gs, splitSlash cs = g :: gs ∧ splitSlash (c :: cs) = (c :: g) :: gs := by
  intro cs c h
  cases hs : splitSlash cs with
  | nil => exact absurd hs (splitSlash_ne_nil cs)
  | cons g gs =>
    refine ⟨g, gs, rfl, ?_⟩
    simp only [splitSlash, if_neg h, hs]

lemma splitSlash_append (a b : List Char) :
    splitSlash (a ++ '/' :: b) = splitSlash a ++ splitSlash b := by
  induction a with
  | nil => simp [splitSlash]
  | cons c cs ih =>
    by_cases h : c = '/'
    · subst h; simp [splitSlash, ih]
    · obtain ⟨g, gs, hs, hcons⟩ := splitSlash_cons_head cs c h
      have := splitSlash_cons_head (cs ++ '/' :: b) c h
      rw [ih, hs] at this
      obtain ⟨g', gs', hg', hcons'⟩ := this
      injection hg' with h1 h2
      subst h1
      rw [List.cons_append, hcons', hcons, List.cons_append]
      exact congrArg ((c :: g) :: ·) h2.symm

lemma splitSlash_no_slash : ∀ {l : List Char}, (∀ c ∈ l, c ≠ '/') → splitSlash l = [l] := by
  intro l
  induction l with
  | nil => intro _; rfl
  | cons c cs ih =>
    intro h
    have hc : c ≠ '/' := h c (by simp)
    obtain ⟨g, gs, hs, hcons⟩ := splitSlash_cons_head cs c hc
    rw [ih (fun x hx => h x (by simp [hx]))] at hs
    injection hs with h1 h2
    subst h1; subst h2
    exact hcons

lemma mem_splitSlash_no_slash : ∀ {l g : List Char}, g ∈ splitSlash l → '/' ∉ g := by
  intro l
  induction l with
  | nil =>
    intro g hg
    simp only [splitSlash, List.mem_singleton] at hg
    subst hg; simp
  | cons c cs ih =>
    intro g hg
    by_cases h : c = '/'
    · subst h
      rw [show splitSlash ('/' :: cs) = [] :: splitSlash cs from by simp [splitSlash]] at hg
      rcases List.mem_cons.mp hg with hg | hg
      · subst hg; simp
      · exact ih hg
    · obtain ⟨g0, gs, hs, hcons⟩ := splitSlash_cons_head cs c h
      rw [hcons] at hg
      rcases List.mem_cons.mp hg with hg | hg
      · subst hg
        intro hmem
        rcases List.mem_cons.mp hmem with hmem | hmem
        · exact h hmem.symm
        · exact ih (hs ▸ List.mem_cons_self g0 gs) hmem
      · exact ih (hs ▸ List.mem_cons_of_mem g0 hg)

lemma joinSlash_cons_cons (x y : List Char) (ys : List (List Char)) :
    joinSlash (x :: y :: ys) = x ++ '/' :: joinSlash (y :: ys) := rfl

lemma splitSlash_joinSlash : ∀ {comps : List (List Char)}, comps ≠ [] →
    (∀ g ∈ comps, '/' ∉ g) → splitSlash (joinSlash comps) = comps := by
  intro comps
  induction comps with
  | nil => intro h _; exact absurd rfl h
  | cons x xs ih =>
    intro _ hmem
    cases xs with
    | nil =>
      show splitSlash (joinSlash [x]) = [x]
      exact splitSlash_no_slash (fun c hc he => (hmem x (by simp)) (he ▸ hc))
    | cons y ys =>
      rw [joinSlash_cons_cons, splitSlash_append,
        splitSlash_no_slash (fun c hc he => (hmem x (by simp)) (he ▸ hc)),
        ih (by simp) (fun g hg => hmem g (List.mem_cons_of_mem x hg))]
      rfl

lemma joinSlash_ne_nil : ∀ {comps : List (List Char)}, comps ≠ [] →
    (∀ g ∈ comps, g ≠ []) → joinSlash comps ≠ [] := by
  intro comps hne hmem
  cases comps with
  | nil => exact absurd rfl hne
  | cons x xs =>
    cases xs with
    | nil => exact hmem x (by simp)
    | cons y ys =>
      rw [joinSlash_cons_cons]
      simp

lemma startsWithSlash_append (x z : List Char) (hx : x ≠ []) :
    startsWithSlash (x ++ z) = startsWithSlash x := by
  cases x with
  | nil => exact absurd rfl hx
  | cons c cs => rfl

lemma joinSlash_startsWithSlash : ∀ (x : List Char) (xs : List (List Char)), x ≠ [] →
    startsWithSlash (joinSlash (x :: xs)) = startsWithSlash x := by
  intro x xs hx
  cases xs with
  | nil => rfl
  | cons y ys => rw [joinSlash_cons_cons, startsWithSlash_append x _ hx]

lemma endsWithSlash_joinSlash : ∀ {comps : List (List Char)}, comps ≠ [] →
    (∀ g ∈ comps, g ≠ [] ∧ '/' ∉ g) → endsWithSlash (joinSlash comps) = false := by
  intro comps
  induction comps with
  | nil => intro h _; exact absurd rfl h
  | cons x xs ih =>
    intro _ hmem
    cases xs with
    | nil =>
      obtain ⟨hx, hsl⟩ := hmem x (by simp)
      show (x.getLast? == some '/') = false
      rw [List.getLast?_eq_getLast x hx]
      have : x.getLast hx ≠ '/' := fun he => hsl (he ▸ List.getLast_mem hx)
      simp [this]
    | cons y ys =>
      have hys : joinSlash (y :: ys) ≠ [] :=
        joinSlash_ne_nil (by simp) (fun g hg => (hmem g (List.mem_cons_of_mem x hg)).1)
      have hih : endsWithSlash (joinSlash (y :: ys)) = false :=
        ih (by simp) (fun g hg => hmem g (List.mem_cons_of_mem x hg))
      have hcons : ('/' :: joinSlash (y :: ys)).getLast? = (joinSlash (y :: ys)).getLast? := by
        cases hj : joinSlash (y :: ys) with
        | nil => exact absurd hj hys
        | cons a as => rw [List.getLast?_cons_cons]
      have hsome : (joinSlash (y :: ys)).getLast? ≠ some '/' := by
        intro he
        unfold endsWithSlash at hih
        rw [he] at hih
        simp at hih
      obtain ⟨a, ha⟩ : ∃ a, (joinSlash (y :: ys)).getLast? = some a :=
        ⟨_, List.getLast?_eq_getLast _ hys⟩
      have hane : a ≠ '/' := fun he => hsome (he ▸ ha)
      rw [joinSlash_cons_cons]
      unfold endsWithSlash
      rw [List.getLast?_append, hcons, ha]
      simp [Option.or, hane]

/-! ## Helper lemmas: `normStep` and its fold -/

lemma normStep_skip_nil (i : Nat) (acc : List (List Char)) : normStep i acc [] = acc := by
  simp [normStep]

lemma normStep_skip_dot (i : Nat) (acc : List (List Char)) : normStep i acc ['.'] = acc := by
  simp [normStep]

lemma normStep_append (i : Nat) (acc : List (List Char)) (comp : List Char)
    (h1 : comp ≠ []) (h2 : comp ≠ ['.']) (h3 : comp ≠ ['.', '.']) :
    normStep i acc comp = acc ++ [comp] := by
  simp [normStep, h1, h2, h3]

lemma foldl_normStep_clean : ∀ (comps : List (List Char)) (i : Nat) (acc : List (List Char)),
    (∀ g ∈ comps, g ≠ [] ∧ g ≠ ['.'] ∧ g ≠ ['.', '.']) →
    List.foldl (normStep i) acc comps = acc ++ comps := by
  intro comps
  induction comps with
  | nil => intro i acc _; simp
  | cons g gs ih =>
    intro i acc h
    obtain ⟨h1, h2, h3⟩ := h g (by simp)
    rw [List.foldl_cons, normStep_append i acc g h1 h2 h3,
      ih i _ (fun x hx => h x (by simp [hx]))]
    simp

lemma foldl_normStep_inv : ∀ (comps : List (List Char)) (i : Nat) (acc : List (List Char)),
    i ≠ 0 → (∀ g ∈ comps, '/' ∉ g) → (∀ g ∈ acc, cleanComp g) →
    ∀ g ∈ List.foldl (normStep i) acc comps, cleanComp g := by
  intro comps
  induction comps with
  | nil => intro i acc _ _ hacc; intro g hg; exact hacc g hg
  | cons gc gs ih =>
    intro i acc hi hcomps hacc
    rw [List.foldl_cons]
    apply ih i _ hi (fun x hx => hcomps x (by simp [hx]))
    intro g hg
    by_cases e1 : gc = []
    · rw [e1, normStep_skip_nil] at hg; exact hacc g hg
    · by_cases e2 : gc = ['.']
      · rw [e2, normStep_skip_dot] at hg; exact hacc g hg
      · by_cases e3 : gc = ['.', '.']
        · subst e3
          have hlast : acc.getLast? ≠ some ['.', '.'] := by
            intro hl
            have hmem : ['.', '.'] ∈ acc := List.mem_of_mem_getLast? (by rw [hl]; rfl)
            exact (hacc _ hmem).2.2.1 rfl
          have hstep : normStep i acc ['.', '.'] = if acc != [] then acc.dropLast else acc := by
            simp [normStep, hi, hlast]
          rw [hstep] at hg
          by_cases hacc0 : acc = []
          · subst hacc0; simp at hg
          · rw [if_pos (by simp [hacc0])] at hg
            exact hacc g ((List.dropLast_sublist acc).subset hg)
        · rw [normStep_append i acc gc e1 e2 e3] at hg
          rcases List.mem_append.mp hg with hg | hg
          · exact hacc g hg
          · rw [List.mem_singleton.mp hg]
            exact ⟨e1, e2, e3, hcomps gc (by simp)⟩

/-! ## Helper lemmas: `initialSlashes` -/

lemma ipo_take_len (p : List Char) (n : Nat) (hn : p.length = n) (l : List Char) :
    List.isPrefixOf p l = List.isPrefixOf p (l.take n) := hn ▸ ipo_take p l

lemma initialSlashes_take3 (a b : List Char) (h : a.take 3 = b.take 3) :
    initialSlashes a = initialSlashes b := by
  have h1 : a.take 1 = b.take 1 := by
    have ha : List.take 1 a = List.take 1 (List.take 3 a) := by
      rw [List.take_take]; norm_num
    have hb : List.take 1 b = List.take 1 (List.take 3 b) := by
      rw [List.take_take]; norm_num
    rw [ha, hb, h]
  have h2 : a.take 2 = b.take 2 := by
    have ha : List.take 2 a = List.take 2 (List.take 3 a) := by
      rw [List.take_take]; norm_num
    have hb : List.take 2 b = List.take 2 (List.take 3 b) := by
      rw [List.take_take]; norm_num
    rw [ha, hb, h]
  unfold initialSlashes
  rw [ipo_take_len ['/'] 1 (by decide) a, ipo_take_len ['/', '/'] 2 (by decide) a,
    ipo_take_len ['/', '/', '/'] 3 (by decide) a,
    ipo_take_len ['/'] 1 (by decide) b, ipo_take_len ['/', '/'] 2 (by decide) b,
    ipo_take_len ['/', '/', '/'] 3 (by decide) b, h1, h2, h]

lemma initialSlashes_zero (l : List Char) (h : startsWithSlash l = false) :
    initialSlashes l = 0 := by
  unfold initialSlashes
  rw [ipo_slash, h]
  rfl

lemma ipo_slashslash (l : List Char) :
    List.isPrefixOf ['/', '/'] ('/' :: l) = startsWithSlash l := by
  rw [ipo_cons]
  simp only [beq_self_eq_true, Bool.true_and]
  exact ipo_slash l

lemma initialSlashes_one (l : List Char) (h : startsWithSlash l = false) :
    initialSlashes ('/' :: l) = 1 := by
  unfold initialSlashes
  rw [show List.isPrefixOf ['/'] ('/' :: l) = true from by simp [ipo_cons, ipo_nil],
    ipo_slashslash, h]
  simp

lemma initialSlashes_two (l : List Char) (h : startsWithSlash l = false) :
    initialSlashes ('/' :: '/' :: l) = 2 := by
  unfold initialSlashes
  have e3 : List.isPrefixOf ['/', '/', '/'] ('/' :: '/' :: l) = startsWithSlash l := by
    rw [ipo_cons]
    simp only [beq_self_eq_true, Bool.true_and]
    exact ipo_slashslash l
  rw [show List.isPrefixOf ['/'] ('/' :: '/' :: l) = true from by simp [ipo_cons, ipo_nil],
    show List.isPrefixOf ['/', '/'] ('/' :: '/' :: l) = true from by simp [ipo_cons, ipo_nil],
    e3, h]
  simp

lemma normpathList_ne_nil (l : List Char) : normpathList l ≠ [] := by
  unfold normpathList
  split
  · simp
  · dsimp only
    split
    · simp
    · rename_i h2
      exact h2

/-! ## Helper lemmas: `normpathList` -/

lemma splitSlash_slash_cons (x : List Char) : splitSlash ('/' :: x) = [] :: splitSlash x := by
  simp [splitSlash]

lemma splitSlash_dot_slash (x : List Char) :
    splitSlash ('.' :: '/' :: x) = ['.'] :: splitSlash x := by
  obtain ⟨g, gs, hs, hcons⟩ := splitSlash_cons_head ('/' :: x) '.' (by decide)
  rw [splitSlash_slash_cons] at hs
  injection hs with ha hb
  subst ha; subst hb
  exact hcons

/-- Inserting a redundant `./` just after a separator does not change
normalization: the extra `.` component is skipped by the component loop and
the leading-slash count is unchanged. -/
lemma normpathList_insert_dot (Q x : List Char) (hx : startsWithSlash x = false) :
    normpathList (Q ++ '/' :: '.' :: '/' :: x) = normpathList (Q ++ '/' :: x) := by
  have hne1 : Q ++ '/' :: '.' :: '/' :: x ≠ [] := by simp
  have hne2 : Q ++ '/' :: x ≠ [] := by simp
  have hinit : initialSlashes (Q ++ '/' :: '.' :: '/' :: x) = initialSlashes (Q ++ '/' :: x) := by
    cases Q with
    | nil =>
      simp only [List.nil_append]
      rw [initialSlashes_one ('.' :: '/' :: x) rfl, initialSlashes_one x hx]
    | cons c Q' =>
      cases Q' with
      | nil =>
        by_cases hc : c = '/'
        · subst hc
          simp only [List.cons_append, List.nil_append]
          rw [initialSlashes_two ('.' :: '/' :: x) rfl, initialSlashes_two x hx]
        · simp only [List.cons_append, List.nil_append]
          have hcf : (c == '/') = false := by simp [hc]
          have e1 : startsWithSlash (c :: '/' :: '.' :: '/' :: x) = false := hcf
          have e2 : startsWithSlash (c :: '/' :: x) = false := hcf
          rw [initialSlashes_zero _ e1, initialSlashes_zero _ e2]
      | cons c2 Q'' =>
        apply initialSlashes_take3
        cases Q'' with
        | nil => rfl
        | cons c3 Q3 => rfl
  have hsplit1 : splitSlash (Q ++ '/' :: '.' :: '/' :: x) =
      splitSlash Q ++ ['.'] :: splitSlash x := by
    rw [splitSlash_append, splitSlash_dot_slash]
  have hsplit2 : splitSlash (Q ++ '/' :: x) = splitSlash Q ++ splitSlash x :=
    splitSlash_append Q x
  have hcomps : ∀ i, List.foldl (normStep i) [] (splitSlash (Q ++ '/' :: '.' :: '/' :: x)) =
      List.foldl (normStep i) [] (splitSlash (Q ++ '/' :: x)) := by
    intro i
    rw [hsplit1, hsplit2, List.foldl_append, List.foldl_append, List.foldl_cons,
      normStep_skip_dot]
  unfold normpathList
  rw [if_neg hne1, if_neg hne2]
  dsimp only
  rw [hinit, hcomps]

lemma startsWithSlash_of_clean {g : List Char} (h : cleanComp g) : startsWithSlash g = false := by
  obtain ⟨h1, _, _, h4⟩ := h
  cases g with
  | nil => exact absurd rfl h1
  | cons c cs =>
    have hc : c ≠ '/' := fun he => h4 (he ▸ List.mem_cons_self c cs)
    show (c == '/') = false
    simp [hc]

lemma endsWithSlash_cons (c : Char) (l : List Char) (h : l ≠ []) :
    endsWithSlash (c :: l) = endsWithSlash l := by
  unfold endsWithSlash
  cases l with
  | nil => exact absurd rfl h
  | cons a as => rw [List.getLast?_cons_cons]

/-- Normalizing an absolute path whose initial-slash count is not the special
POSIX double-slash case yields a single slash followed by clean components. -/
lemma normpathList_abs (l : List Char) (h1 : startsWithSlash l = true)
    (h2 : initialSlashes l ≠ 2) :
    ∃ comps, (∀ g ∈ comps, cleanComp g) ∧
      normpathList l = '/' :: joinSlash comps ∧
      comps = List.foldl (normStep 1) [] (splitSlash l) := by
  have hne : l ≠ [] := by
    cases l with
    | nil => exact absurd h1 (by decide)
    | cons c cs => simp
  have hinit : initialSlashes l = 1 := by
    cases hc : (List.isPrefixOf ['/', '/'] l && !List.isPrefixOf ['/', '/', '/'] l) with
    | true =>
      exfalso
      apply h2
      unfold initialSlashes
      rw [ipo_slash, h1, hc]
      simp
    | false =>
      unfold initialSlashes
      rw [ipo_slash, h1, hc]
      simp
  have hclean : ∀ g ∈ List.foldl (normStep 1) [] (splitSlash l), cleanComp g :=
    foldl_normStep_inv (splitSlash l) 1 [] (by decide)
      (fun g hg => mem_splitSlash_no_slash hg) (by simp)
  refine ⟨List.foldl (normStep 1) [] (splitSlash l), hclean, ?_, rfl⟩
  unfold normpathList
  rw [if_neg hne]
  dsimp only
  rw [hinit]
  rw [if_neg (by simp)]
  simp

lemma normpathList_abs_round (comps : List (List Char)) (hclean : ∀ g ∈ comps, cleanComp g) :
    normpathList (pjoinList ('/' :: joinSlash comps) []) = '/' :: joinSlash comps := by
  cases comps with
  | nil => decide
  | cons x xs =>
    have hx : cleanComp x := hclean x (by simp)
    have hJne : joinSlash (x :: xs) ≠ [] :=
      joinSlash_ne_nil (by simp) (fun g hg => (hclean g hg).1)
    have hsw : startsWithSlash (joinSlash (x :: xs)) = false := by
      rw [joinSlash_startsWithSlash x xs hx.1]
      exact startsWithSlash_of_clean hx
    have hends : endsWithSlash ('/' :: joinSlash (x :: xs)) = false := by
      rw [endsWithSlash_cons '/' _ hJne]
      exact endsWithSlash_joinSlash (by simp)
        (fun g hg => ⟨(hclean g hg).1, (hclean g hg).2.2.2⟩)
    have hpj : pjoinList ('/' :: joinSlash (x :: xs)) [] =
        ('/' :: joinSlash (x :: xs)) ++ ['/'] := by
      unfold pjoinList
      rw [show startsWithSlash ([] : List Char) = false from rfl, hends]
      simp
    rw [hpj]
    have hJs : splitSlash (joinSlash (x :: xs)) = x :: xs :=
      splitSlash_joinSlash (by simp) (fun g hg => (hclean g hg).2.2.2)
    have hsplit : splitSlash (('/' :: joinSlash (x :: xs)) ++ ['/']) =
        ([] :: x :: xs) ++ [[]] := by
      rw [show (('/' :: joinSlash (x :: xs)) ++ ['/']) =
          '/' :: (joinSlash (x :: xs) ++ '/' :: []) from by simp,
        splitSlash_slash_cons, splitSlash_append, hJs]
      rfl
    have hinit1 : initialSlashes (('/' :: joinSlash (x :: xs)) ++ ['/']) = 1 := by
      rw [show (('/' :: joinSlash (x :: xs)) ++ ['/']) =
          '/' :: (joinSlash (x :: xs) ++ ['/']) from by simp]
      exact initialSlashes_one _ (by rw [startsWithSlash_append _ _ hJne, hsw])
    have hfold : List.foldl (normStep 1) [] (([] :: x :: xs) ++ [[]]) = x :: xs := by
      rw [List.foldl_append]
      rw [show List.foldl (normStep 1) [] ([] :: x :: xs) = x :: xs from by
        rw [List.foldl_cons, normStep_skip_nil,
          foldl_normStep_clean (x :: xs) 1 [] (fun g hg =>
            ⟨(hclean g hg).1, (hclean g hg).2.1, (hclean g hg).2.2.1⟩)]
        simp]
      simp [List.foldl_cons, normStep_skip_nil]
    unfold normpathList
    rw [if_neg (by simp)]
    dsimp only
    rw [hinit1, hsplit, hfold]
    rw [if_neg (by simp)]
    simp

lemma filter_clean (comps : List (List Char)) (hclean : ∀ g ∈ comps, cleanComp g) :
    comps.filter (fun c => c != [] && c != ['.']) = comps := by
  apply List.filter_eq_self.mpr
  intro g hg
  have h := hclean g hg
  simp [h.1, h.2.1]

lemma lcp_self : ∀ (xs : List (List Char)), lcpComps xs xs = xs := by
  intro xs
  induction xs with
  | nil => rfl
  | cons x xs ih => simp [lcpComps, ih]

lemma commonpath2_self_abs (comps : List (List Char)) (hclean : ∀ g ∈ comps, cleanComp g) :
    commonpath2List ('/' :: joinSlash comps) ('/' :: joinSlash comps) =
      some ('/' :: joinSlash comps) := by
  cases comps with
  | nil => decide
  | cons x xs =>
    have hsplit : splitSlash ('/' :: joinSlash (x :: xs)) = [] :: x :: xs := by
      rw [splitSlash_slash_cons,
        splitSlash_joinSlash (by simp) (fun g hg => (hclean g hg).2.2.2)]
    unfold commonpath2List
    rw [show startsWithSlash ('/' :: joinSlash (x :: xs)) = true from rfl, hsplit]
    have hfilter : List.filter (fun c => c != [] && c != ['.']) ([] :: x :: xs) = x :: xs := by
      rw [List.filter_cons, if_neg (by decide)]
      exact filter_clean (x :: xs) hclean
    rw [hfilter, lcp_self]
    simp

/-! ## Helper lemmas: `sanitize_path` plumbing -/

lemma abspath_of_abs (cwd p : String) (h : isabs p = true) : abspath cwd p = normpath p := by
  unfold abspath
  rw [h]
  simp

lemma sanitize_path_rel (cwd t b : String) (h : isabs t = false) :
    sanitize_path cwd t b =
      containment_check (abspath cwd b) (normpath (pjoin (abspath cwd b) t)) := by
  unfold sanitize_path
  rw [h]
  simp

lemma sanitize_path_absBase (cwd t b : String) (h : isabs b = true) :
    sanitize_path cwd t b = sanitize_path "/" t b := by
  unfold sanitize_path
  rw [abspath_of_abs cwd b h, abspath_of_abs "/" b h]

lemma containment_check_ok (base full p : String)
    (h : containment_check base full = (p, none)) :
    p = full ∧
      (full.data = base.data ∨ List.isPrefixOf (base.data ++ ['/']) full.data = true) := by
  unfold containment_check at h
  split at h
  · exact absurd (congrArg Prod.snd h) (by simp)
  · split at h
    · exact absurd (congrArg Prod.snd h) (by simp)
    · split at h
      · rename_i hor
        injection h with h1 h2
        refine ⟨h1.symm, ?_⟩
        rw [Bool.or_eq_true] at hor
        rcases hor with h3 | h3
        · exact Or.inl (beq_iff_eq.mp h3)
        · exact Or.inr h3
      · exact absurd (congrArg Prod.snd h) (by simp)

lemma containment_check_shape (base full : String) :
    (∃ e, containment_check base full = ("", some e)) ∨
      containment_check base full = (full, none) := by
  unfold containment_check
  split
  · exact Or.inl ⟨_, rfl⟩
  · split
    · exact Or.inl ⟨_, rfl⟩
    · split
      · exact Or.inr rfl
      · exact Or.inl ⟨_, rfl⟩

lemma getLast?_decomp : ∀ {l : List Char} {a : Char},
    l.getLast? = some a → ∃ l', l = l' ++ [a] := by
  intro l
  induction l with
  | nil => intro a h; simp at h
  | cons c cs ih =>
    intro a h
    cases cs with
    | nil =>
      rw [List.getLast?_singleton] at h
      injection h with h1
      exact ⟨[], by rw [h1]; rfl⟩
    | cons d ds =>
      rw [List.getLast?_cons_cons] at h
      obtain ⟨l', hl⟩ := ih h
      exact ⟨c :: l', by rw [hl]; rfl⟩

/-! ## Claim C1 -/

/-- Claim C1, as stated, fails on the code: `_sanitize_path` compares the
candidate against `os.path.abspath(base_dir)`, not against the base string
as given.  For the absolute but non-normalized base `/workspace/` the call
`_sanitize_path("x", "/workspace/")` succeeds and returns `/workspace/x`,
which neither equals `/workspace/` nor starts with `/workspace//`. -/
theorem c1_counterexample :
    sanitize_path "/" "x" "/workspace/" = ("/workspace/x", none) ∧
    (("/workspace/x" : String) == "/workspace/") = false ∧
    List.isPrefixOf (("/workspace/" : String).data ++ ['/'])
      ("/workspace/x" : String).data = false := by
  decide

/-- Claim C1 (amended): for every target string and absolute base directory,
if `_sanitize_path(target, base)` succeeds, the returned path equals the
canonicalized base `normpath(base)` (which is `abspath(base)` for an
absolute base) or starts with it followed immediately by the separator. -/
theorem c1_containment_amended (cwd target base p : String) (hb : isabs base = true)
    (h : sanitize_path cwd target base = (p, none)) :
    p = normpath base ∨
      List.isPrefixOf ((normpath base).data ++ ['/']) p.data = true := by
  by_cases ht : isabs target = true
  · rw [show sanitize_path cwd target base = ("", some (absMsg target)) from by
      unfold sanitize_path; rw [ht]; simp] at h
    exact absurd (congrArg Prod.snd h) (by simp)
  · rw [sanitize_path_rel cwd target base (by simpa using ht),
      abspath_of_abs cwd base hb] at h
    obtain ⟨hp, hdisj⟩ := containment_check_ok _ _ _ h
    rcases hdisj with h1 | h1
    · exact Or.inl (by rw [hp]; exact String.ext h1)
    · exact Or.inr (by rw [hp]; exact h1)

theorem c1_containment_amended_witness :
    isabs "/workspace" = true ∧
    sanitize_path "/" "x" "/workspace" = ("/workspace/x", none) ∧
    (("/workspace/x" : String) = normpath "/workspace" ∨
      List.isPrefixOf ((normpath "/workspace").data ++ ['/'])
        ("/workspace/x" : String).data = true) :=
  ⟨by decide, by decide,
    c1_containment_amended "/" "x" "/workspace" "/workspace/x" (by decide) (by decide)⟩

/-! ## Claim C3 -/

/-- Claim C3: the four traversal attempts are all rejected with the
traversal message (which mentions the normalized base `/workspace`),
for every process working directory. -/
theorem c3_traversal_rejection (cwd : String) :
    sanitize_path cwd "../x" "/workspace" = ("", some (travMsg "/workspace")) ∧
    sanitize_path cwd "../../etc/passwd" "/workspace" = ("", some (travMsg "/workspace")) ∧
    sanitize_path cwd "foo/../../etc" "/workspace" = ("", some (travMsg "/workspace")) ∧
    sanitize_path cwd "../workspaceevil" "/workspace" = ("", some (travMsg "/workspace")) := by
  refine ⟨?_, ?_, ?_, ?_⟩
  · rw [sanitize_path_absBase cwd "../x" "/workspace" (by decide)]; decide
  · rw [sanitize_path_absBase cwd "../../etc/passwd" "/workspace" (by decide)]; decide
  · rw [sanitize_path_absBase cwd "foo/../../etc" "/workspace" (by decide)]; decide
  · rw [sanitize_path_absBase cwd "../workspaceevil" "/workspace" (by decide)]; decide

/-! ## Claim C4 -/

/-- Claim C4: every platform-absolute target is rejected with the
absolute-path message and an empty path, regardless of the base directory,
and that message differs from every traversal message. -/
theorem c4_absolute_rejection (cwd target base : String) (h : isabs target = true) :
    sanitize_path cwd target base = ("", some (absMsg target)) ∧
    ∀ b2 : String, absMsg target ≠ travMsg b2 := by
  constructor
  · unfold sanitize_path; rw [h]; simp
  · intro b2 he
    have hd := congrArg String.data he
    have h1 : (absMsg target).data.head? = some 'A' := by
      unfold absMsg
      rw [String.data_append, String.data_append]
      rfl
    have h2 : (travMsg b2).data.head? = some 'P' := by
      unfold travMsg
      rw [String.data_append]
      rfl
    have h3 := congrArg List.head? hd
    rw [h1, h2] at h3
    exact absurd h3 (by decide)

theorem c4_absolute_rejection_witness :
    isabs "/etc/passwd" = true ∧
    (sanitize_path "/" "/etc/passwd" "/workspace" = ("", some (absMsg "/etc/passwd")) ∧
      ∀ b2 : String, absMsg "/etc/passwd" ≠ travMsg b2) :=
  ⟨by decide, c4_absolute_rejection "/" "/etc/passwd" "/workspace" (by decide)⟩

/-! ## Claim C8 -/

/-- Claim C8: prepending `./` to a relative target never changes the result
of `_sanitize_path`, for every base directory (and working directory). -/
theorem c8_normalization_idempotence (cwd base x : String) (h : isabs x = false) :
    sanitize_path cwd ("./" ++ x) base = sanitize_path cwd x base := by
  have hdata : (("./" ++ x) : String).data = '.' :: '/' :: x.data := by
    rw [String.data_append]; rfl
  have habs : isabs ("./" ++ x) = false := by
    unfold isabs
    rw [hdata]
    rfl
  rw [sanitize_path_rel cwd _ base habs, sanitize_path_rel cwd x base h]
  congr 1
  have hbne : (abspath cwd base).data ≠ [] := by
    unfold abspath
    split <;> (unfold normpath; rw [data_mk]; exact normpathList_ne_nil _)
  unfold normpath pjoin
  rw [data_mk, data_mk]
  congr 1
  rw [hdata]
  have hswx : startsWithSlash x.data = false := h
  unfold pjoinList
  rw [show startsWithSlash ('.' :: '/' :: x.data) = false from rfl, hswx]
  by_cases hend : ((abspath cwd base).data == [] || endsWithSlash (abspath cwd base).data) = true
  · rw [if_pos hend, if_pos hend]
    have hendS : endsWithSlash (abspath cwd base).data = true := by
      rw [Bool.or_eq_true] at hend
      rcases hend with h1 | h1
      · exact absurd (beq_iff_eq.mp h1) hbne
      · exact h1
    obtain ⟨Q, hQ⟩ : ∃ Q, (abspath cwd base).data = Q ++ ['/'] := by
      unfold endsWithSlash at hendS
      exact getLast?_decomp (beq_iff_eq.mp hendS)
    rw [hQ]
    rw [show (Q ++ ['/']) ++ ('.' :: '/' :: x.data) = Q ++ '/' :: '.' :: '/' :: x.data from by simp,
      show (Q ++ ['/']) ++ x.data = Q ++ '/' :: x.data from by simp]
    exact normpathList_insert_dot Q x.data hswx
  · rw [if_neg hend, if_neg hend]
    exact normpathList_insert_dot (abspath cwd base).data x.data hswx

theorem c8_normalization_idempotence_witness :
    isabs "my-repo" = false ∧
    sanitize_path "/" ("./" ++ "my-repo") "/workspace" =
      sanitize_path "/" "my-repo" "/workspace" :=
  ⟨by decide, c8_normalization_idempotence "/" "/workspace" "my-repo" (by decide)⟩

/-! ## Claim C10 -/

/-- Claim C10, as stated, fails on the code in two ways.  First, the accepted
empty target returns the canonicalized base, not the base string as given:
`_sanitize_path("", "/workspace/")` returns `/workspace` (`≠ /workspace/`).
Second, an absolute base beginning with exactly two slashes is not accepted
at all: `posixpath.commonpath` collapses the POSIX double-slash root, so
`_sanitize_path("", "//")` rejects with a traversal error. -/
theorem c10_counterexample :
    sanitize_path "/" "" "/workspace/" = ("/workspace", none) ∧
    (("/workspace" : String) == "/workspace/") = false ∧
    ((sanitize_path "/" "" "//").2).isSome = true := by
  decide

/-- Claim C10 (amended): for every absolute base directory that does not
begin with exactly two slashes, `_sanitize_path("", base)` accepts the empty
target (treating it like `.`) and returns the canonicalized base
`abspath(base) = normpath(base)` as the confined path. -/
theorem c10_empty_target_amended (cwd base : String) (h1 : isabs base = true)
    (h2 : initialSlashes base.data ≠ 2) :
    sanitize_path cwd "" base = (normpath base, none) := by
  rw [sanitize_path_rel cwd "" base rfl, abspath_of_abs cwd base h1]
  obtain ⟨comps, hclean, hnb, _⟩ := normpathList_abs base.data h1 h2
  have hnorm : normpath base = String.mk ('/' :: joinSlash comps) := by
    unfold normpath
    rw [hnb]
  rw [hnorm]
  have hfull : normpath (pjoin (String.mk ('/' :: joinSlash comps)) "") =
      String.mk ('/' :: joinSlash comps) := by
    unfold normpath pjoin
    rw [data_mk, data_mk]
    rw [show ("" : String).data = [] from rfl]
    rw [normpathList_abs_round comps hclean]
  rw [hfull]
  unfold containment_check
  rw [data_mk, commonpath2_self_abs comps hclean]
  simp

theorem c10_empty_target_amended_witness :
    isabs "/workspace" = true ∧ initialSlashes ("/workspace" : String).data ≠ 2 ∧
    sanitize_path "/" "" "/workspace" = (normpath "/workspace", none) :=
  ⟨by decide, by decide,
    c10_empty_target_amended "/" "/workspace" (by decide) (by decide)⟩

/-! ## Helper lemmas: the pattern matchers -/

lemma run_slash_split : ∀ (u rest : List Char), (∀ c ∈ u, isRepoChar c = true) →
    (u ++ '/' :: rest).takeWhile isRepoChar = u ∧
    (u ++ '/' :: rest).dropWhile isRepoChar = '/' :: rest := by
  intro u
  induction u with
  | nil =>
    intro rest _
    constructor
    · rw [List.nil_append, List.takeWhile_cons, show isRepoChar '/' = false from rfl]
      simp
    · rw [List.nil_append, List.dropWhile_cons, show isRepoChar '/' = false from rfl]
      simp
  | cons c cs ih =>
    intro rest hu
    have hc : isRepoChar c = true := hu c (by simp)
    obtain ⟨ih1, ih2⟩ := ih rest (fun x hx => hu x (by simp [hx]))
    constructor
    · rw [List.cons_append, List.takeWhile_cons, hc]
      simp [ih1]
    · rw [List.cons_append, List.dropWhile_cons, hc]
      simp [ih2]

lemma takeWhile_all (l : List Char) (h : ∀ c ∈ l, isRepoChar c = true) :
    l.takeWhile isRepoChar = l := List.takeWhile_eq_self_iff.mpr h

lemma dropWhile_all (l : List Char) (h : ∀ c ∈ l, isRepoChar c = true) :
    l.dropWhile isRepoChar = [] := by
  induction l with
  | nil => rfl
  | cons c cs ih =>
    rw [List.dropWhile_cons, if_pos (by rw [h c (by simp)])]
    exact ih (fun x hx => h x (by simp [hx]))

lemma matchOwner_split (u rest : List Char) (hu1 : u ≠ [])
    (hu2 : ∀ c ∈ u, isRepoChar c = true) :
    matchOwner (u ++ '/' :: rest) = some (u, rest) := by
  obtain ⟨h1, h2⟩ := run_slash_split u rest hu2
  unfold matchOwner
  rw [h1, h2]
  simp [hu1]

lemma matchOwner_inv {l own rest : List Char} (h : matchOwner l = some (own, rest)) :
    own = l.takeWhile isRepoChar ∧ l = own ++ '/' :: rest ∧ own ≠ [] ∧
      ∀ c ∈ own, isRepoChar c = true := by
  unfold matchOwner at h
  split at h
  · exact absurd h (by simp)
  · rename_i hne
    split at h
    · rename_i c rest' hdw
      split at h
      · rename_i hcslash
        injection h with h1
        injection h1 with h1a h1b
        subst h1a; subst h1b
        have hcs : c = '/' := beq_iff_eq.mp hcslash
        subst hcs
        refine ⟨rfl, ?_, by simpa using hne, fun x hx => List.mem_takeWhile_imp hx⟩
        rw [← hdw]
        exact (List.takeWhile_append_dropWhile isRepoChar l).symm
      · exact absurd h (by simp)
    · exact absurd h (by simp)

lemma findName_exact (tailf : List Char → Bool) (suffix : List Char)
    (hsuf : tailf suffix = true)
    (hblock : ∀ u, u ≠ [] → (∀ c ∈ u, isRepoChar c = true) → tailf (u ++ suffix) = false) :
    ∀ nm, nm ≠ [] → (∀ c ∈ nm, isRepoChar c = true) →
      findName tailf (nm ++ suffix) = some nm := by
  intro nm
  induction nm with
  | nil => intro h _; exact absurd rfl h
  | cons c cs ih =>
    intro _ hnm
    have hc : isRepoChar c = true := hnm c (by simp)
    by_cases hcs : cs = []
    · subst hcs
      show findName tailf (c :: suffix) = some [c]
      simp [findName, hc, hsuf]
    · have hblk : tailf (cs ++ suffix) = false :=
        hblock cs hcs (fun x hx => hnm x (by simp [hx]))
      have hih : findName tailf (cs ++ suffix) = some cs :=
        ih hcs (fun x hx => hnm x (by simp [hx]))
      show findName tailf (c :: (cs ++ suffix)) = some (c :: cs)
      simp [findName, hc, hblk, hih]

lemma findName_mem (tailf : List Char → Bool) :
    ∀ {l g : List Char}, findName tailf l = some g →
      g ≠ [] ∧ ∀ c ∈ g, isRepoChar c = true := by
  intro l
  induction l with
  | nil => intro g h; exact absurd h (by simp [findName])
  | cons c cs ih =>
    intro g h
    unfold findName at h
    split at h
    · rename_i hc
      split at h
      · injection h with h1; subst h1
        refine ⟨by simp, ?_⟩
        intro x hx
        rw [List.mem_singleton.mp hx]
        exact hc
      · split at h
        · rename_i g' hg'
          injection h with h1; subst h1
          obtain ⟨hne, hmem⟩ := ih hg'
          refine ⟨by simp, ?_⟩
          intro x hx
          rcases List.mem_cons.mp hx with hx | hx
          · subst hx; exact hc
          · exact hmem x hx
        · exact absurd h (by simp)
    · exact absurd h (by simp)

lemma findName_decomp (tailf : List Char → Bool) :
    ∀ {l g : List Char}, findName tailf l = some g →
      ∃ r, l = g ++ r ∧ tailf r = true := by
  intro l
  induction l with
  | nil => intro g h; exact absurd h (by simp [findName])
  | cons c cs ih =>
    intro g h
    unfold findName at h
    split at h
    · split at h
      · rename_i htail
        injection h with h1; subst h1
        exact ⟨cs, rfl, htail⟩
      · split at h
        · rename_i g' hg'
          injection h with h1; subst h1
          obtain ⟨r, hr1, hr2⟩ := ih hg'
          exact ⟨r, by rw [List.cons_append, ← hr1], hr2⟩
        · exact absurd h (by simp)
    · exact absurd h (by simp)

/-! ## Helper lemmas: the literal tokens as character lists -/

lemma https_data : "https://".data = ['h', 't', 't', 'p', 's', ':', '/', '/'] := rfl

lemma http_data : "http://".data = ['h', 't', 't', 'p', ':', '/', '/'] := rfl

lemma www_data : "www.".data = ['w', 'w', 'w', '.'] := rfl

lemma ghc_data : "github.com/".data =
    ['g', 'i', 't', 'h', 'u', 'b', '.', 'c', 'o', 'm', '/'] := rfl

lemma ghcom_data : "github.com".data =
    ['g', 'i', 't', 'h', 'u', 'b', '.', 'c', 'o', 'm'] := rfl

lemma ssh_data : "git@github.com:".data =
    ['g', 'i', 't', '@', 'g', 'i', 't', 'h', 'u', 'b', '.', 'c', 'o', 'm', ':'] := rfl

lemma drop_len_append (p rest : List Char) (n : Nat) (hn : n = p.length) :
    (p ++ rest).drop n = rest := by
  rw [hn, List.drop_left]

/-! ## Helper lemmas: the `(?:\.git)?` tails reject a longer name run

A nonempty run of class characters followed by literal `.git` never
satisfies the pattern tail, which is what forces the lazy name group to
extend to the whole name. -/

lemma endOk_cons_app_git (c : Char) (u : List Char) :
    endOk (c :: (u ++ ['.', 'g', 'i', 't'])) = false := by
  cases hq : u ++ ['.', 'g', 'i', 't'] with
  | nil => simp at hq
  | cons d rest => rfl

lemma endOk_app_git_false (u : List Char) (hu : u ≠ [])
    (hA : ∀ c ∈ u, isRepoChar c = true) :
    endOk (u ++ ['.', 'g', 'i', 't']) = false := by
  cases u with
  | nil => exact absurd rfl hu
  | cons c cs =>
    rw [List.cons_append]
    exact endOk_cons_app_git c cs

lemma optSlashEnd_app_git_false (u : List Char) (hu : u ≠ [])
    (hA : ∀ c ∈ u, isRepoChar c = true) :
    optSlashEnd (u ++ ['.', 'g', 'i', 't']) = false := by
  cases u with
  | nil => exact absurd rfl hu
  | cons c cs =>
    have hc : c ≠ '/' := repoChar_ne_slash (hA c (by simp))
    rw [List.cons_append]
    unfold optSlashEnd
    rw [endOk_cons_app_git]
    simp [hc]

lemma dotGitOpt_app_git_false (basef : List Char → Bool)
    (hb1 : basef ['.', 'g', 'i', 't'] = false)
    (hb2 : ∀ u, u ≠ [] → (∀ c ∈ u, isRepoChar c = true) →
      basef (u ++ ['.', 'g', 'i', 't']) = false) :
    ∀ u, u ≠ [] → (∀ c ∈ u, isRepoChar c = true) →
      dotGitOpt basef (u ++ ['.', 'g', 'i', 't']) = false := by
  intro u hu hA
  unfold dotGitOpt
  rw [hb2 u hu hA, Bool.or_false]
  cases u with
  | nil => exact absurd rfl hu
  | cons a u1 =>
    cases u1 with
    | nil =>
      rw [show List.isPrefixOf ['.', 'g', 'i', 't'] ([a] ++ ['.', 'g', 'i', 't']) = false from by
        simp [ipo_cons]]
      simp
    | cons b u2 =>
      cases u2 with
      | nil =>
        rw [show List.isPrefixOf ['.', 'g', 'i', 't']
            ([a, b] ++ ['.', 'g', 'i', 't']) = false from by simp [ipo_cons]]
        simp
      | cons c2 u3 =>
        cases u3 with
        | nil =>
          rw [show List.isPrefixOf ['.', 'g', 'i', 't']
              ([a, b, c2] ++ ['.', 'g', 'i', 't']) = false from by simp [ipo_cons]]
          simp
        | cons d u4 =>
          by_cases hpre : List.isPrefixOf ['.', 'g', 'i', 't']
              ((a :: b :: c2 :: d :: u4) ++ ['.', 'g', 'i', 't']) = true
          · rw [if_pos hpre]
            simp only [List.cons_append, ipo_cons, ipo_nil, Bool.and_true, Bool.and_eq_true,
              beq_iff_eq] at hpre
            obtain ⟨ha, hb', hc', hd⟩ := hpre
            subst ha; subst hb'; subst hc'; subst hd
            show basef (u4 ++ ['.', 'g', 'i', 't']) = false
            cases u4 with
            | nil => exact hb1
            | cons e u5 =>
              exact hb2 (e :: u5) (by simp) (fun x hx => hA x (by simp [hx]))
          · rw [if_neg hpre]

lemma tailHTTPS_block (u : List Char) (hu : u ≠ [])
    (hA : ∀ c ∈ u, isRepoChar c = true) :
    tailHTTPS (u ++ ['.', 'g', 'i', 't']) = false :=
  dotGitOpt_app_git_false optSlashEnd (by decide) optSlashEnd_app_git_false u hu hA

lemma tailSSH_block (u : List Char) (hu : u ≠ [])
    (hA : ∀ c ∈ u, isRepoChar c = true) :
    tailSSH (u ++ ['.', 'g', 'i', 't']) = false :=
  dotGitOpt_app_git_false endOk (by decide) endOk_app_git_false u hu hA

lemma findName_git_https (nm : List Char) (hn1 : nm ≠ [])
    (hn2 : ∀ c ∈ nm, isRepoChar c = true) :
    findName tailHTTPS (nm ++ ['.', 'g', 'i', 't']) = some nm :=
  findName_exact tailHTTPS ['.', 'g', 'i', 't'] (by decide) tailHTTPS_block nm hn1 hn2

lemma findName_git_ssh (nm : List Char) (hn1 : nm ≠ [])
    (hn2 : ∀ c ∈ nm, isRepoChar c = true) :
    findName tailSSH (nm ++ ['.', 'g', 'i', 't']) = some nm :=
  findName_exact tailSSH ['.', 'g', 'i', 't'] (by decide) tailSSH_block nm hn1 hn2

/-! ## Helper lemmas: full-pattern matches on canonical inputs -/

lemma matchOwner_all_none (R : List Char) (hR : ∀ c ∈ R, isRepoChar c = true) :
    matchOwner R = none := by
  unfold matchOwner
  rw [dropWhile_all R hR]
  split
  · rfl
  · rfl

lemma matchHTTPScore_canonical (own nm : List Char) (ho1 : own ≠ [])
    (ho2 : ∀ c ∈ own, isRepoChar c = true) (hn1 : nm ≠ [])
    (hn2 : ∀ c ∈ nm, isRepoChar c = true) :
    matchHTTPScore ("github.com/".data ++ (own ++ '/' :: (nm ++ ['.', 'g', 'i', 't']))) =
      some (own, nm) := by
  unfold matchHTTPScore
  rw [if_pos (ipo_append _ _),
    drop_len_append "github.com/".data (own ++ '/' :: (nm ++ ['.', 'g', 'i', 't'])) 11 rfl]
  simp only [matchOwner_split own (nm ++ ['.', 'g', 'i', 't']) ho1 ho2,
    findName_git_https nm hn1 hn2]

lemma dropScheme_https (rest : List Char) :
    dropScheme ("https://".data ++ rest) = rest := by
  unfold dropScheme
  rw [if_pos (ipo_append _ _)]
  exact drop_len_append _ _ 8 rfl

lemma dropWww_ghc (rest : List Char) :
    dropWww ("github.com/".data ++ rest) = "github.com/".data ++ rest := by
  unfold dropWww
  rw [if_neg ?_]
  rw [www_data, ghc_data]
  simp [ipo_cons]

lemma matchHTTPS_canonical (own nm : List Char) (ho1 : own ≠ [])
    (ho2 : ∀ c ∈ own, isRepoChar c = true) (hn1 : nm ≠ [])
    (hn2 : ∀ c ∈ nm, isRepoChar c = true) :
    matchHTTPS ("https://github.com/".data ++ (own ++ '/' :: (nm ++ ['.', 'g', 'i', 't']))) =
      some (own, nm) := by
  rw [show "https://github.com/".data ++ (own ++ '/' :: (nm ++ ['.', 'g', 'i', 't'])) =
      "https://".data ++ ("github.com/".data ++ (own ++ '/' :: (nm ++ ['.', 'g', 'i', 't'])))
    from by simp]
  unfold matchHTTPS
  rw [dropScheme_https, dropWww_ghc]
  exact matchHTTPScore_canonical own nm ho1 ho2 hn1 hn2

lemma matchSSH_canonical (own nm : List Char) (ho1 : own ≠ [])
    (ho2 : ∀ c ∈ own, isRepoChar c = true) (hn1 : nm ≠ [])
    (hn2 : ∀ c ∈ nm, isRepoChar c = true) :
    matchSSH ("git@github.com:".data ++ (own ++ '/' :: (nm ++ ['.', 'g', 'i', 't']))) =
      some (own, nm) := by
  unfold matchSSH
  rw [if_pos (ipo_append _ _),
    drop_len_append "git@github.com:".data (own ++ '/' :: (nm ++ ['.', 'g', 'i', 't'])) 15 rfl]
  simp only [matchOwner_split own (nm ++ ['.', 'g', 'i', 't']) ho1 ho2,
    findName_git_ssh nm hn1 hn2]

lemma matchBare_all (own R : List Char) (ho1 : own ≠ [])
    (ho2 : ∀ c ∈ own, isRepoChar c = true) (hR1 : R ≠ [])
    (hR2 : ∀ c ∈ R, isRepoChar c = true) :
    matchBare (own ++ '/' :: R) = some (own, R) := by
  unfold matchBare
  simp only [matchOwner_split own R ho1 ho2]
  rw [takeWhile_all R hR2, dropWhile_all R hR2]
  simp [hR1, endOk]

/-! ## Helper lemmas: the other patterns reject bare and SSH shapes -/

lemma matchSSH_none_of_no_at (l : List Char) (h : ('@' : Char) ∉ l) : matchSSH l = none := by
  unfold matchSSH
  rw [if_neg (fun hpre => h (by
    rw [ipo_decomp hpre]
    exact List.mem_append.mpr (Or.inl (by rw [ssh_data]; decide))))]

lemma dropScheme_no_colon (l : List Char) (h : (':' : Char) ∉ l) : dropScheme l = l := by
  unfold dropScheme
  rw [if_neg (fun hpre => h (by
      rw [ipo_decomp hpre]
      exact List.mem_append.mpr (Or.inl (by rw [https_data]; decide)))),
    if_neg (fun hpre => h (by
      rw [ipo_decomp hpre]
      exact List.mem_append.mpr (Or.inl (by rw [http_data]; decide))))]

lemma matchHTTPScore_bare_none (own R : List Char)
    (ho2 : ∀ c ∈ own, isRepoChar c = true) (_hR1 : R ≠ [])
    (hR2 : ∀ c ∈ R, isRepoChar c = true) :
    matchHTTPScore (own ++ '/' :: R) = none := by
  unfold matchHTTPScore
  by_cases hg : List.isPrefixOf "github.com/".data (own ++ '/' :: R) = true
  · rw [if_pos hg]
    have h0 := ipo_decomp hg
    rw [show ("github.com/".data).length = 11 from rfl] at h0
    have hdec : own ++ '/' :: R =
        "github.com".data ++ '/' :: ((own ++ '/' :: R).drop 11) := by
      rw [h0]
      rw [show "github.com/".data = "github.com".data ++ ['/'] from rfl]
      simp
    obtain ⟨ht1, ht2⟩ := run_slash_split own R ho2
    obtain ⟨hs1, hs2⟩ :=
      run_slash_split "github.com".data ((own ++ '/' :: R).drop 11)
        (by rw [ghcom_data]; decide)
    rw [← hdec] at hs2
    have hrest := ht2.symm.trans hs2
    injection hrest with h1 hrest'
    rw [← hrest']
    simp only [matchOwner_all_none R hR2]
  · rw [if_neg hg]

lemma matchHTTPS_bare_none (own R : List Char) (ho1 : own ≠ [])
    (ho2 : ∀ c ∈ own, isRepoChar c = true) (hR1 : R ≠ [])
    (hR2 : ∀ c ∈ R, isRepoChar c = true) :
    matchHTTPS (own ++ '/' :: R) = none := by
  have hnc : (':' : Char) ∉ own ++ '/' :: R := by
    intro hm
    rcases List.mem_append.mp hm with hm | hm
    · exact repoChar_ne_colon (ho2 _ hm) rfl
    · rcases List.mem_cons.mp hm with hm | hm
      · exact absurd hm (by decide)
      · exact repoChar_ne_colon (hR2 _ hm) rfl
  unfold matchHTTPS
  rw [dropScheme_no_colon _ hnc]
  by_cases hw : List.isPrefixOf "www.".data (own ++ '/' :: R) = true
  · cases own with
    | nil => exact absurd rfl ho1
    | cons a o1 =>
      cases o1 with
      | nil =>
        exfalso
        rw [www_data] at hw
        simp [ipo_cons] at hw
      | cons b o2 =>
        cases o2 with
        | nil =>
          exfalso
          rw [www_data] at hw
          simp [ipo_cons] at hw
        | cons c2 o3 =>
          cases o3 with
          | nil =>
            exfalso
            rw [www_data] at hw
            simp [ipo_cons] at hw
          | cons d o4 =>
            rw [www_data] at hw
            simp only [List.cons_append, ipo_cons, ipo_nil, Bool.and_true, Bool.and_eq_true,
              beq_iff_eq] at hw
            obtain ⟨ha, hb', hc', hd⟩ := hw
            subst ha; subst hb'; subst hc'; subst hd
            rw [show dropWww (('w' :: 'w' :: 'w' :: '.' :: o4) ++ '/' :: R) = o4 ++ '/' :: R
              from by
                unfold dropWww
                rw [if_pos (by rw [www_data]; simp [ipo_cons, ipo_nil])]
                rfl]
            exact matchHTTPScore_bare_none o4 R (fun x hx => ho2 x (by simp [hx])) hR1 hR2
  · rw [show dropWww (own ++ '/' :: R) = own ++ '/' :: R from by
      unfold dropWww
      rw [if_neg hw]]
    exact matchHTTPScore_bare_none own R ho2 hR1 hR2

lemma matchHTTPS_ssh_none (X : List Char) :
    matchHTTPS ("git@github.com:".data ++ X) = none := by
  unfold matchHTTPS matchHTTPScore dropScheme dropWww
  rw [ssh_data]
  simp [https_data, http_data, www_data, ghc_data, ipo_cons]

/-! ## Helper lemmas: stripping is the identity on space-free inputs -/

lemma dropWhile_space_id (l : List Char) (h : ∀ c ∈ l, isPySpace c = false) :
    l.dropWhile isPySpace = l := by
  cases l with
  | nil => rfl
  | cons c cs => rw [List.dropWhile_cons, if_neg (by simp [h c (by simp)])]

lemma pystrip_id (l : List Char) (h : ∀ c ∈ l, isPySpace c = false) : pystripList l = l := by
  unfold pystripList
  rw [dropWhile_space_id l h,
    dropWhile_space_id l.reverse (fun c hc => h c (List.mem_reverse.mp hc)),
    List.reverse_reverse]

/-! ## Helper lemmas: `parse_repo_info` case selection -/

lemma parse_https (s : String) (o n : List Char)
    (h : matchHTTPS (pystripList s.data) = some (o, n)) :
    parse_repo_info (some s) = (some (String.mk o), some (String.mk n)) := by
  unfold parse_repo_info
  simp only [h]

lemma parse_ssh (s : String) (o n : List Char)
    (h1 : matchHTTPS (pystripList s.data) = none)
    (h2 : matchSSH (pystripList s.data) = some (o, n)) :
    parse_repo_info (some s) = (some (String.mk o), some (String.mk n)) := by
  unfold parse_repo_info
  simp only [h1, h2]

lemma parse_bare (s : String) (o n : List Char)
    (h1 : matchHTTPS (pystripList s.data) = none)
    (h2 : matchSSH (pystripList s.data) = none)
    (h3 : matchBare (pystripList s.data) = some (o, n)) :
    parse_repo_info (some s) = (some (String.mk o), some (String.mk n)) := by
  unfold parse_repo_info
  simp only [h1, h2, h3]

lemma no_space_append (l1 l2 : List Char) (h1 : ∀ c ∈ l1, isPySpace c = false)
    (h2 : ∀ c ∈ l2, isPySpace c = false) : ∀ c ∈ l1 ++ l2, isPySpace c = false := by
  intro c hc
  rcases List.mem_append.mp hc with hc | hc
  · exact h1 c hc
  · exact h2 c hc

lemma no_space_repo {l : List Char} (h : ∀ c ∈ l, isRepoChar c = true) :
    ∀ c ∈ l, isPySpace c = false := fun c hc => repoChar_not_space (h c hc)

lemma no_space_slash_cons {l : List Char} (h : ∀ c ∈ l, isPySpace c = false) :
    ∀ c ∈ '/' :: l, isPySpace c = false := by
  intro c hc
  rcases List.mem_cons.mp hc with hc | hc
  · subst hc; rfl
  · exact h c hc

/-! ## Claim C5 -/

/-- Claim C5, as stated, fails on the code for the bare shape: the bare
`OWNER_REPO_PATTERN` has no `(?:\.git)?` group, and `.` is in the name
character class, so `_parse_repo_info("owner/repo.git")` returns the name
`repo.git` with the suffix NOT stripped. -/
theorem c5_counterexample :
    parse_repo_info (some "owner/repo.git") = (some "owner", some "repo.git") ∧
    (("repo.git" : String) == "repo") = false := by
  decide

/-- Claim C5 (amended): for every owner and name over `[A-Za-z0-9_.-]`, an
accepted reference whose name token is followed by literal `.git` returns
the name with the suffix stripped under the HTTPS and SSH shapes; under the
bare `owner/repo.git` shape the input is accepted but the `.git` suffix is
kept as part of the returned name. -/
theorem c5_dotgit_strip_amended (own nm : List Char) (ho1 : own ≠ [])
    (ho2 : ∀ c ∈ own, isRepoChar c = true) (hn1 : nm ≠ [])
    (hn2 : ∀ c ∈ nm, isRepoChar c = true) :
    parse_repo_info (some (String.mk ("https://github.com/".data ++
        (own ++ '/' :: (nm ++ ['.', 'g', 'i', 't']))))) =
      (some (String.mk own), some (String.mk nm)) ∧
    parse_repo_info (some (String.mk ("git@github.com:".data ++
        (own ++ '/' :: (nm ++ ['.', 'g', 'i', 't']))))) =
      (some (String.mk own), some (String.mk nm)) ∧
    parse_repo_info (some (String.mk (own ++ '/' :: (nm ++ ['.', 'g', 'i', 't'])))) =
      (some (String.mk own), some (String.mk (nm ++ ['.', 'g', 'i', 't']))) := by
  have hng : ∀ c ∈ ['.', 'g', 'i', 't'], isRepoChar c = true := by decide
  have hnmg : ∀ c ∈ nm ++ ['.', 'g', 'i', 't'], isRepoChar c = true := by
    intro c hc
    rcases List.mem_append.mp hc with hc | hc
    · exact hn2 c hc
    · exact hng c hc
  have hnosp_X : ∀ c ∈ own ++ '/' :: (nm ++ ['.', 'g', 'i', 't']), isPySpace c = false :=
    no_space_append own _ (no_space_repo ho2) (no_space_slash_cons (no_space_repo hnmg))
  refine ⟨?_, ?_, ?_⟩
  · apply parse_https
    rw [data_mk, pystrip_id _ (no_space_append "https://github.com/".data _ (by decide) hnosp_X)]
    exact matchHTTPS_canonical own nm ho1 ho2 hn1 hn2
  · have hid : pystripList ("git@github.com:".data ++
        (own ++ '/' :: (nm ++ ['.', 'g', 'i', 't']))) = _ :=
      pystrip_id _ (no_space_append "git@github.com:".data _ (by decide) hnosp_X)
    apply parse_ssh
    · rw [data_mk, hid]
      exact matchHTTPS_ssh_none _
    · rw [data_mk, hid]
      exact matchSSH_canonical own nm ho1 ho2 hn1 hn2
  · apply parse_bare
    · rw [data_mk, pystrip_id _ hnosp_X]
      exact matchHTTPS_bare_none own _ ho1 ho2 (by simp) hnmg
    · rw [data_mk, pystrip_id _ hnosp_X]
      apply matchSSH_none_of_no_at
      intro hm
      rcases List.mem_append.mp hm with hm | hm
      · exact repoChar_ne_at (ho2 _ hm) rfl
      · rcases List.mem_cons.mp hm with hm | hm
        · exact absurd hm (by decide)
        · exact repoChar_ne_at (hnmg _ hm) rfl
    · rw [data_mk, pystrip_id _ hnosp_X]
      exact matchBare_all own _ ho1 ho2 (by simp) hnmg

theorem c5_dotgit_strip_amended_witness :
    (['o', 'w', 'n', 'e', 'r'] : List Char) ≠ [] ∧
    (∀ c ∈ (['o', 'w', 'n', 'e', 'r'] : List Char), isRepoChar c = true) ∧
    (['r', 'e', 'p', 'o'] : List Char) ≠ [] ∧
    (∀ c ∈ (['r', 'e', 'p', 'o'] : List Char), isRepoChar c = true) ∧
    (parse_repo_info (some (String.mk ("https://github.com/".data ++
        (['o', 'w', 'n', 'e', 'r'] ++ '/' :: (['r', 'e', 'p', 'o'] ++ ['.', 'g', 'i', 't']))))) =
      (some (String.mk ['o', 'w', 'n', 'e', 'r']), some (String.mk ['r', 'e', 'p', 'o'])) ∧
    parse_repo_info (some (String.mk ("git@github.com:".data ++
        (['o', 'w', 'n', 'e', 'r'] ++ '/' :: (['r', 'e', 'p', 'o'] ++ ['.', 'g', 'i', 't']))))) =
      (some (String.mk ['o', 'w', 'n', 'e', 'r']), some (String.mk ['r', 'e', 'p', 'o'])) ∧
    parse_repo_info (some (String.mk (['o', 'w', 'n', 'e', 'r'] ++ '/' ::
        (['r', 'e', 'p', 'o'] ++ ['.', 'g', 'i', 't'])))) =
      (some (String.mk ['o', 'w', 'n', 'e', 'r']),
        some (String.mk (['r', 'e', 'p', 'o'] ++ ['.', 'g', 'i', 't'])))) :=
  ⟨by decide, by decide, by decide, by decide,
    c5_dotgit_strip_amended ['o', 'w', 'n', 'e', 'r'] ['r', 'e', 'p', 'o']
      (by decide) (by decide) (by decide) (by decide)⟩

/-! ## Claim C6 -/

/-- Claim C6: the three canonical spellings of the same repository all
round-trip to the pair `("owner", "repo")`. -/
theorem c6_round_trip :
    parse_repo_info (some "https://github.com/owner/repo.git") = (some "owner", some "repo") ∧
    parse_repo_info (some "git@github.com:owner/repo") = (some "owner", some "repo") ∧
    parse_repo_info (some "owner/repo") = (some "owner", some "repo") := by
  decide

/-! ## Helper lemmas: inversion of successful matches -/

lemma matchHTTPScore_inv {s o n : List Char} (h : matchHTTPScore s = some (o, n)) :
    o ≠ [] ∧ (∀ c ∈ o, isRepoChar c = true) ∧ n ≠ [] ∧ (∀ c ∈ n, isRepoChar c = true) := by
  unfold matchHTTPScore at h
  split at h
  · split at h
    · rename_i own r2 hmo
      split at h
      · rename_i nm hfn
        injection h with h1
        injection h1 with h1a h1b
        subst h1a; subst h1b
        obtain ⟨_, _, ho1, ho2⟩ := matchOwner_inv hmo
        obtain ⟨hn1, hn2⟩ := findName_mem tailHTTPS hfn
        exact ⟨ho1, ho2, hn1, hn2⟩
      · exact absurd h (by simp)
    · exact absurd h (by simp)
  · exact absurd h (by simp)

lemma matchHTTPS_inv {l o n : List Char} (h : matchHTTPS l = some (o, n)) :
    o ≠ [] ∧ (∀ c ∈ o, isRepoChar c = true) ∧ n ≠ [] ∧ (∀ c ∈ n, isRepoChar c = true) :=
  matchHTTPScore_inv h

lemma matchSSH_inv {l o n : List Char} (h : matchSSH l = some (o, n)) :
    o ≠ [] ∧ (∀ c ∈ o, isRepoChar c = true) ∧ n ≠ [] ∧ (∀ c ∈ n, isRepoChar c = true) := by
  unfold matchSSH at h
  split at h
  · split at h
    · rename_i own r2 hmo
      split at h
      · rename_i nm hfn
        injection h with h1
        injection h1 with h1a h1b
        subst h1a; subst h1b
        obtain ⟨_, _, ho1, ho2⟩ := matchOwner_inv hmo
        obtain ⟨hn1, hn2⟩ := findName_mem tailSSH hfn
        exact ⟨ho1, ho2, hn1, hn2⟩
      · exact absurd h (by simp)
    · exact absurd h (by simp)
  · exact absurd h (by simp)

lemma matchBare_inv {l o n : List Char} (h : matchBare l = some (o, n)) :
    o ≠ [] ∧ (∀ c ∈ o, isRepoChar c = true) ∧ n ≠ [] ∧ (∀ c ∈ n, isRepoChar c = true) := by
  unfold matchBare at h
  split at h
  · rename_i own r2 hmo
    split at h
    · exact absurd h (by simp)
    · rename_i hne
      split at h
      · injection h with h1
        injection h1 with h1a h1b
        subst h1a; subst h1b
        obtain ⟨_, _, ho1, ho2⟩ := matchOwner_inv hmo
        refine ⟨ho1, ho2, by simpa using hne, fun c hc => List.mem_takeWhile_imp hc⟩
      · exact absurd h (by simp)
  · exact absurd h (by simp)

/-! ## Claim C7 -/

/-- Claim C7: whenever `_parse_repo_info` accepts, both returned components
are nonempty strings over the class `[A-Za-z0-9_.-]`. -/
theorem c7_reporef_invariant (ru : Option String) (o n : String)
    (h : parse_repo_info ru = (some o, some n)) :
    o ≠ "" ∧ n ≠ "" ∧ (∀ c ∈ o.data, isRepoChar c = true) ∧
      (∀ c ∈ n.data, isRepoChar c = true) := by
  cases ru with
  | none =>
    exfalso
    rw [show parse_repo_info none = (none, none) from rfl] at h
    injection h with h1 h2
    exact absurd h1 (by simp)
  | some s =>
    cases hH : matchHTTPS (pystripList s.data) with
    | some v =>
      obtain ⟨o', n'⟩ := v
      rw [parse_https s o' n' hH] at h
      injection h with h1 h2
      injection h1 with h1
      injection h2 with h2
      subst h1; subst h2
      obtain ⟨ho1, ho2, hn1, hn2⟩ := matchHTTPS_inv hH
      exact ⟨by simpa [String.ext_iff] using ho1, by simpa [String.ext_iff] using hn1, ho2, hn2⟩
    | none =>
      cases hS : matchSSH (pystripList s.data) with
      | some v =>
        obtain ⟨o', n'⟩ := v
        rw [parse_ssh s o' n' hH hS] at h
        injection h with h1 h2
        injection h1 with h1
        injection h2 with h2
        subst h1; subst h2
        obtain ⟨ho1, ho2, hn1, hn2⟩ := matchSSH_inv hS
        exact ⟨by simpa [String.ext_iff] using ho1, by simpa [String.ext_iff] using hn1,
          ho2, hn2⟩
      | none =>
        cases hB : matchBare (pystripList s.data) with
        | some v =>
          obtain ⟨o', n'⟩ := v
          rw [parse_bare s o' n' hH hS hB] at h
          injection h with h1 h2
          injection h1 with h1
          injection h2 with h2
          subst h1; subst h2
          obtain ⟨ho1, ho2, hn1, hn2⟩ := matchBare_inv hB
          exact ⟨by simpa [String.ext_iff] using ho1, by simpa [String.ext_iff] using hn1,
            ho2, hn2⟩
        | none =>
          exfalso
          have hpn : parse_repo_info (some s) = (none, none) := by
            unfold parse_repo_info
            simp only [hH, hS, hB]
          rw [hpn] at h
          injection h with h1 h2
          exact absurd h1 (by simp)

theorem c7_reporef_invariant_witness :
    parse_repo_info (some "owner/repo") = (some "owner", some "repo") ∧
    (("owner" : String) ≠ "" ∧ ("repo" : String) ≠ "" ∧
      (∀ c ∈ ("owner" : String).data, isRepoChar c = true) ∧
      (∀ c ∈ ("repo" : String).data, isRepoChar c = true)) :=
  ⟨by decide, c7_reporef_invariant (some "owner/repo") "owner" "repo" (by decide)⟩

/-! ## Helper lemmas: separator counting distinguishes the three grammars -/

lemma count_slash_zero_of_repo (l : List Char) (h : ∀ c ∈ l, isRepoChar c = true) :
    l.count '/' = 0 :=
  List.count_eq_zero.mpr (fun hm => repoChar_ne_slash (h _ hm) rfl)

lemma endOk_true_elim {r : List Char} (h : endOk r = true) : r = [] ∨ r = ['\n'] := by
  cases r with
  | nil => exact Or.inl rfl
  | cons c cs =>
    cases cs with
    | nil =>
      right
      have hc : c = '\n' := beq_iff_eq.mp h
      rw [hc]
    | cons d ds => exact absurd h (by simp [endOk])

lemma count_slash_endOk {r : List Char} (h : endOk r = true) : r.count '/' = 0 := by
  rcases endOk_true_elim h with h1 | h1 <;> subst h1 <;> decide

lemma tailSSH_count {r : List Char} (h : tailSSH r = true) : r.count '/' = 0 := by
  unfold tailSSH dotGitOpt at h
  rw [Bool.or_eq_true] at h
  rcases h with h | h
  · by_cases hpre : List.isPrefixOf ['.', 'g', 'i', 't'] r = true
    · rw [if_pos hpre] at h
      have hd := ipo_decomp hpre
      rw [show (['.', 'g', 'i', 't'] : List Char).length = 4 from rfl] at hd
      have hcount : r.count '/' =
          (['.', 'g', 'i', 't'] : List Char).count '/' + (r.drop 4).count '/' := by
        conv_lhs => rw [hd]
        exact List.count_append _ _ _
      rw [hcount, count_slash_endOk h]
      decide
    · rw [if_neg hpre] at h
      exact absurd h (by simp)
  · exact count_slash_endOk h

lemma count_slash_r2 (r2 : List Char) (hend : endOk (r2.dropWhile isRepoChar) = true) :
    r2.count '/' = 0 := by
  have h1 : (r2.takeWhile isRepoChar).count '/' = 0 :=
    count_slash_zero_of_repo _ (fun c hc => List.mem_takeWhile_imp hc)
  have h2 : (r2.dropWhile isRepoChar).count '/' = 0 := count_slash_endOk hend
  have hs : r2.count '/' =
      (r2.takeWhile isRepoChar).count '/' + (r2.dropWhile isRepoChar).count '/' := by
    conv_lhs => rw [(List.takeWhile_append_dropWhile isRepoChar r2).symm]
    exact List.count_append _ _ _
  rw [hs, h1, h2]

lemma at_notin_r2 (r2 : List Char) (hend : endOk (r2.dropWhile isRepoChar) = true) :
    ('@' : Char) ∉ r2 := by
  intro hm
  have hm' : ('@' : Char) ∈ r2.takeWhile isRepoChar ++ r2.dropWhile isRepoChar := by
    rw [List.takeWhile_append_dropWhile]
    exact hm
  rcases List.mem_append.mp hm' with hm2 | hm2
  · exact repoChar_ne_at (List.mem_takeWhile_imp hm2) rfl
  · rcases endOk_true_elim hend with he | he
    · rw [he] at hm2
      simp at hm2
    · rw [he] at hm2
      rcases List.mem_singleton.mp hm2 with h
      exact absurd h (by decide)

lemma matchSSH_count {l : List Char} {v : List Char × List Char}
    (h : matchSSH l = some v) : l.count '/' = 1 ∧ ('@' : Char) ∈ l := by
  unfold matchSSH at h
  split at h
  · rename_i hpre
    have hd := ipo_decomp hpre
    rw [show ("git@github.com:".data).length = 15 from rfl] at hd
    split at h
    · rename_i own r2 hmo
      split at h
      · rename_i nm hfn
        obtain ⟨_, hdec, ho1, ho2⟩ := matchOwner_inv hmo
        obtain ⟨r, hr1, hr2⟩ := findName_decomp tailSSH hfn
        obtain ⟨hn1, hn2⟩ := findName_mem tailSSH hfn
        constructor
        · have hcount : (l.drop 15).count '/' = 1 := by
            rw [hdec, hr1, List.count_append, List.count_cons, List.count_append]
            rw [count_slash_zero_of_repo own ho2, count_slash_zero_of_repo nm hn2,
              tailSSH_count hr2]
            simp
          have hl : l.count '/' = ("git@github.com:".data).count '/' + (l.drop 15).count '/' := by
            conv_lhs => rw [hd]
            exact List.count_append _ _ _
          rw [hl, hcount]
          decide
        · rw [hd]
          exact List.mem_append.mpr (Or.inl (by rw [ssh_data]; decide))
      · exact absurd h (by simp)
    · exact absurd h (by simp)
  · exact absurd h (by simp)

lemma matchBare_count {l : List Char} {v : List Char × List Char}
    (h : matchBare l = some v) : l.count '/' = 1 ∧ ('@' : Char) ∉ l := by
  unfold matchBare at h
  split at h
  · rename_i own r2 hmo
    split at h
    · exact absurd h (by simp)
    · split at h
      · rename_i hne hend
        obtain ⟨_, hdec, ho1, ho2⟩ := matchOwner_inv hmo
        constructor
        · have hl : l.count '/' = own.count '/' + ('/' :: r2).count '/' := by
            conv_lhs => rw [hdec]
            exact List.count_append _ _ _
          rw [hl, List.count_cons, count_slash_zero_of_repo own ho2, count_slash_r2 r2 hend]
          simp
        · intro hm
          rw [hdec] at hm
          rcases List.mem_append.mp hm with hm2 | hm2
          · exact repoChar_ne_at (ho2 _ hm2) rfl
          · rcases List.mem_cons.mp hm2 with hm3 | hm3
            · exact absurd hm3 (by decide)
            · exact at_notin_r2 r2 hend hm3
      · exact absurd h (by simp)
  · exact absurd h (by simp)

lemma count_drop_le (n : Nat) (l : List Char) : (l.drop n).count '/' ≤ l.count '/' := by
  have hs : l.count '/' = (l.take n).count '/' + (l.drop n).count '/' := by
    conv_lhs => rw [(List.take_append_drop n l).symm]
    exact List.count_append _ _ _
  omega

lemma dropScheme_count (l : List Char) : (dropScheme l).count '/' ≤ l.count '/' := by
  unfold dropScheme
  split
  · exact count_drop_le 8 l
  · split
    · exact count_drop_le 7 l
    · exact Nat.le_refl _

lemma dropWww_count (l : List Char) : (dropWww l).count '/' ≤ l.count '/' := by
  unfold dropWww
  split
  · exact count_drop_le 4 l
  · exact Nat.le_refl _

lemma matchHTTPScore_count {s : List Char} {v : List Char × List Char}
    (h : matchHTTPScore s = some v) : 2 ≤ s.count '/' := by
  unfold matchHTTPScore at h
  split at h
  · rename_i hpre
    have hd := ipo_decomp hpre
    rw [show ("github.com/".data).length = 11 from rfl] at hd
    split at h
    · rename_i own r2 hmo
      obtain ⟨_, hdec, _, ho2⟩ := matchOwner_inv hmo
      have h1 : 1 ≤ (s.drop 11).count '/' := by
        rw [hdec, List.count_append, List.count_cons]
        simp only [beq_self_eq_true, if_true]
        omega
      have hl : s.count '/' = ("github.com/".data).count '/' + (s.drop 11).count '/' := by
        conv_lhs => rw [hd]
        exact List.count_append _ _ _
      have h2 : ("github.com/".data).count '/' = 1 := by decide
      omega
    · exact absurd h (by simp)
  · exact absurd h (by simp)

lemma matchHTTPS_count {l : List Char} {v : List Char × List Char}
    (h : matchHTTPS l = some v) : 2 ≤ l.count '/' := by
  have h1 : 2 ≤ (dropWww (dropScheme l)).count '/' := matchHTTPScore_count h
  have h2 := dropWww_count (dropScheme l)
  have h3 := dropScheme_count l
  omega

/-! ## Claim C2 -/

/-- Claim C2: at most one of the three anchored patterns can accept any
stripped input (an accepted input therefore matches exactly one), and the
four adversarial repository references are all rejected.  The proof counts
separators: an HTTPS match forces at least two `/`, SSH and bare matches
force exactly one, and an SSH match forces a `@` which a bare match
excludes. -/
theorem c2_grammar_exclusivity :
    (∀ s : String,
      (cond (matchHTTPS (pystripList s.data)).isSome 1 0 +
        cond (matchSSH (pystripList s.data)).isSome 1 0 +
        cond (matchBare (pystripList s.data)).isSome 1 0) ≤ 1) ∧
    parse_repo_info (some "owner/repo/extra") = (none, none) ∧
    parse_repo_info (some "https://evil.com/github.com/owner/repo") = (none, none) ∧
    parse_repo_info (some "https://github.com.evil.com/owner/repo") = (none, none) ∧
    parse_repo_info (some "https://github.com@evil.com/owner/repo") = (none, none) := by
  refine ⟨?_, by decide, by decide, by decide, by decide⟩
  intro s
  cases hH : matchHTTPS (pystripList s.data) with
  | none =>
    cases hS : matchSSH (pystripList s.data) with
    | none => cases hB : matchBare (pystripList s.data) <;> simp
    | some v =>
      cases hB : matchBare (pystripList s.data) with
      | none => simp
      | some w =>
        exfalso
        obtain ⟨hc1, hat⟩ := matchSSH_count hS
        obtain ⟨hc2, hno⟩ := matchBare_count hB
        exact hno hat
  | some v =>
    have h2 := matchHTTPS_count hH
    cases hS : matchSSH (pystripList s.data) with
    | some w =>
      exfalso
      obtain ⟨hc1, _⟩ := matchSSH_count hS
      omega
    | none =>
      cases hB : matchBare (pystripList s.data) with
      | some w =>
        exfalso
        obtain ⟨hc1, _⟩ := matchBare_count hB
        omega
      | none => simp

/-! ## Claim C9 -/

/-- Claim C9: both validators are total functions whose failures are
results, never exceptions.  `_parse_repo_info` maps `None` and the empty
string to `(None, None)`, returns `(None, None)` exactly when no grammar
matches the stripped input in full (so a rejection never carries an owner or a name), and every result is either a rejection or a fully populated
pair; `_sanitize_path` always returns either a path with no error or an
empty path with an error message. -/
theorem c9_failures_are_results :
    parse_repo_info none = (none, none) ∧
    parse_repo_info (some "") = (none, none) ∧
    (∀ s : String, parse_repo_info (some s) = (none, none) ↔
      (matchHTTPS (pystripList s.data) = none ∧ matchSSH (pystripList s.data) = none ∧
        matchBare (pystripList s.data) = none)) ∧
    (∀ ru : Option String, parse_repo_info ru = (none, none) ∨
      ∃ o n, parse_repo_info ru = (some o, some n)) ∧
    (∀ cwd target base : String, (∃ e, sanitize_path cwd target base = ("", some e)) ∨
      ∃ p, sanitize_path cwd target base = (p, none)) := by
  refine ⟨rfl, by decide, ?_, ?_, ?_⟩
  · intro s
    constructor
    · intro h
      cases hH : matchHTTPS (pystripList s.data) with
      | some v =>
        exfalso
        obtain ⟨o, n⟩ := v
        rw [parse_https s o n hH] at h
        injection h with h1 h2
        exact absurd h1 (by simp)
      | none =>
        cases hS : matchSSH (pystripList s.data) with
        | some v =>
          exfalso
          obtain ⟨o, n⟩ := v
          rw [parse_ssh s o n hH hS] at h
          injection h with h1 h2
          exact absurd h1 (by simp)
        | none =>
          cases hB : matchBare (pystripList s.data) with
          | some v =>
            exfalso
            obtain ⟨o, n⟩ := v
            rw [parse_bare s o n hH hS hB] at h
            injection h with h1 h2
            exact absurd h1 (by simp)
          | none => exact ⟨rfl, rfl, rfl⟩
    · rintro ⟨h1, h2, h3⟩
      unfold parse_repo_info
      simp only [h1, h2, h3]
  · intro ru
    cases ru with
    | none => exact Or.inl rfl
    | some s =>
      cases hH : matchHTTPS (pystripList s.data) with
      | some v =>
        obtain ⟨o, n⟩ := v
        exact Or.inr ⟨_, _, parse_https s o n hH⟩
      | none =>
        cases hS : matchSSH (pystripList s.data) with
        | some v =>
          obtain ⟨o, n⟩ := v
          exact Or.inr ⟨_, _, parse_ssh s o n hH hS⟩
        | none =>
          cases hB : matchBare (pystripList s.data) with
          | some v =>
            obtain ⟨o, n⟩ := v
            exact Or.inr ⟨_, _, parse_bare s o n hH hS hB⟩
          | none =>
            refine Or.inl ?_
            unfold parse_repo_info
            simp only [hH, hS, hB]
  · intro cwd target base
    unfold sanitize_path
    split
    · exact Or.inl ⟨_, rfl⟩
    · rcases containment_check_shape (abspath cwd base)
        (normpath (pjoin (abspath cwd base) target)) with ⟨e, he⟩ | hok
      · exact Or.inl ⟨e, he⟩
      · exact Or.inr ⟨_, hok⟩
